import Mathlib

/-!
Shallow embedding of the RAG pipeline notebook (`rag_pipeline (1).ipynb`):
PDF text extraction (per-page extraction results given as inputs), word
chunking (`chunk_text`), flat L2 retrieval (`retrieve_relevant_chunks`) and
prompt construction, with the Python primitives used by the notebook
(`str.split()`, `str.join`, list slicing and indexing) modelled explicitly.
-/

namespace RAG

/-- Python whitespace test used by `str.split()` with no separator argument:
space, tab, newline, carriage return, vertical tab, form feed. -/
def pyIsSpace (c : Char) : Bool :=
  c = ' ' || c = '\t' || c = '\n' || c = '\r' || c = '\u000B' || c = '\u000C'

/-- Worker for `str.split()`: accumulates maximal runs of non-whitespace
characters; `cur` holds the characters of the word being read, reversed. -/
def wordsAux : List Char → List Char → List (List Char)
  | [], cur => if cur.isEmpty then [] else [cur.reverse]
  | c :: cs, cur =>
    if pyIsSpace c then
      if cur.isEmpty then wordsAux cs [] else cur.reverse :: wordsAux cs []
    else wordsAux cs (c :: cur)

/-- Python `text.split()`: split on runs of whitespace, producing no empty
words; the empty string yields the empty list. -/
def splitWhitespace (s : String) : List String :=
  (wordsAux s.data []).map String.mk

/-- Python `sep.join(ws)`. -/
def pyJoin (sep : String) : List String → String
  | [] => ""
  | [w] => w
  | w :: ws => w ++ sep ++ pyJoin sep ws

/-- Clamp an integer index to `[0, n]` with Python slice semantics for a list
of length `n` (negative indices count from the end). -/
def pyIndex (n : Nat) (i : Int) : Nat :=
  if i < 0 then ((n : Int) + i).toNat else min i.toNat n

/-- Python slice `l[a:b]`. -/
def pySlice {α : Type} (l : List α) (a b : Int) : List α :=
  (l.take (pyIndex l.length b)).drop (pyIndex l.length a)

/-- Python indexing `l[i]`: a negative index counts from the end; an index out
of range raises, modelled by `none`. -/
def pyGet {α : Type} (l : List α) (i : Int) : Option α :=
  let j : Int := if i < 0 then (l.length : Int) + i else i
  if 0 ≤ j then l.get? j.toNat else none

/-! ### Chunker: `chunk_text`

The notebook's loop is

```
words = text.split()
chunks = []
start = 0
while start < len(words):
    end = min(start + chunk_size, len(words))
    chunk = " ".join(words[start:end])
    chunks.append(chunk)
    start += (chunk_size - overlap)
return chunks
```

`chunkLoop` is the literal image of this loop: `start` is a Python integer
(it goes negative when `overlap > chunk_size`), and the fuel counts loop
iterations, `none` meaning the loop has not finished within the given number
of iterations. `chunk_text` is the terminating word-level rendering used when
`overlap < chunk_size`; the two are proved to agree in that case. -/

/-- The literal `while` loop of `chunk_text`, fuelled. -/
def chunkLoop (words : List String) (chunk_size overlap : Nat) :
    Int → List String → Nat → Option (List String)
  | start, chunks, 0 =>
      if start < (words.length : Int) then none else some chunks
  | start, chunks, fuel + 1 =>
      if start < (words.length : Int) then
        chunkLoop words chunk_size overlap
          (start + ((chunk_size : Int) - (overlap : Int)))
          (chunks ++
            [pyJoin " " (pySlice words start
              (min (start + (chunk_size : Int)) ((words.length : Int))))])
          fuel
      else some chunks

/-- `chunk_text` as the fuelled loop on the split words of the input. -/
def chunk_textFuel (text : String) (chunk_size overlap : Nat) (fuel : Nat) :
    Option (List String) :=
  chunkLoop (splitWhitespace text) chunk_size overlap 0 [] fuel

/-- Word-level chunk windows: the window at `start` is
`words[start : start + chunk_size]`, and the next window starts
`chunk_size - overlap` later.  The fuel bounds the number of windows;
`words.length` iterations always suffice when `overlap < chunk_size`. -/
def chunkWordsAux (words : List String) (chunk_size overlap : Nat) :
    Nat → Nat → List (List String)
  | _, 0 => []
  | start, fuel + 1 =>
    if start < words.length then
      (words.drop start).take chunk_size ::
        chunkWordsAux words chunk_size overlap (start + (chunk_size - overlap)) fuel
    else []

/-- The word windows of the chunker, starting at 0. -/
def chunkWords (words : List String) (chunk_size overlap : Nat) :
    List (List String) :=
  chunkWordsAux words chunk_size overlap 0 words.length

/-- `chunk_text` (terminating case `overlap < chunk_size`): split the text on
whitespace and join each word window with single spaces. -/
def chunk_text (text : String) (chunk_size overlap : Nat) : List String :=
  (chunkWords (splitWhitespace text) chunk_size overlap).map (pyJoin " ")

/-- Reading chunk word sequences in order while collapsing the words shared
between consecutive chunks: the first chunk contributes all its words, every
later chunk drops the `overlap` words it shares with its predecessor. -/
def collapseOverlaps (overlap : Nat) : List (List String) → List String
  | [] => []
  | c :: cs => c ++ (cs.map (List.drop overlap)).flatten

example : splitWhitespace "a  b c" = ["a", "b", "c"] := by decide
example : splitWhitespace "" = [] := by decide
example : chunk_text "a b c d e f g h i j" 10 2 = ["a b c d e f g h i j", "i j"] := by decide
example : chunk_text "a b c" 2 1 = ["a b", "b c", "c"] := by decide
example : chunk_textFuel "a b c" 2 1 5 = some ["a b", "b c", "c"] := by decide
example : chunk_textFuel "a b c" 2 2 5 = none := by decide

/-! ### Extractor: `extract_text_from_pdf`

The PDF library is external; the per-page results of `page.extract_text()`
are the inputs of the model, one string per page (`""` for a page whose
extraction yields nothing).  The notebook is

```
text = ""
for i, page in enumerate(pdf_reader.pages):
    page_text = page.extract_text()
    if page_text:
        text += f"\n--- Page \x7bi+1\x7d ---\n" + page_text
return text
```
-/

/-- The accumulating `for` loop of `extract_text_from_pdf`; `i` is the
0-based page counter of `enumerate`. -/
def extractPages : String → Nat → List String → String
  | acc, _, [] => acc
  | acc, i, page_text :: rest =>
      extractPages
        (if page_text = "" then acc
         else acc ++ ("\n--- Page " ++ toString (i + 1) ++ " ---\n" ++ page_text))
        (i + 1) rest

/-- `extract_text_from_pdf`, on the list of per-page extraction results. -/
def extract_text_from_pdf (pages : List String) : String :=
  extractPages "" 0 pages

/-- Spec-side formulation of the extractor: each page whose extraction is
non-empty contributes a 1-indexed marker followed by its text, each page whose
extraction is empty contributes nothing; `i` is the 0-based index of the first
page of the list. -/
def extractSpec : Nat → List String → String
  | _, [] => ""
  | i, page_text :: rest =>
      (if page_text = "" then ""
       else "\n--- Page " ++ toString (i + 1) ++ " ---\n" ++ page_text) ++
        extractSpec (i + 1) rest

example : extract_text_from_pdf ["hello world", ""] = "\n--- Page 1 ---\nhello world" := by decide

/-! ### Retriever: `retrieve_relevant_chunks`

The embedder and the FAISS index are external libraries.  The embedder is an
arbitrary function from strings to integer vectors; the flat L2 index built by
`index.add(embeddings)` is the list of the chunk embeddings in order, and
`index.search` is modelled from the library's documented flat-index semantics:
the indices of the `k` stored vectors nearest to the query by (squared)
Euclidean distance, in non-decreasing order of distance, padded with `-1` when
`k` exceeds the number of stored vectors.  The list comprehension
`[chunks[i] for i in indices[0]]` is Python indexing, which resolves negative
indices from the end and raises out of range. -/

/-- Squared Euclidean distance between two vectors. -/
def sqDist (u v : List Int) : Int :=
  (List.zipWith (fun a b => (a - b) ^ 2) u v).sum

/-- The flat L2 index built over `index_vecs`, searched with query vector `q`
for the `k` nearest stored vectors: their indices ordered by non-decreasing
squared distance, padded with `-1` past the number of stored vectors. -/
def searchIdx (index_vecs : List (List Int)) (q : List Int) (k : Nat) : List Int :=
  ((List.insertionSort
    (fun i j => sqDist q (index_vecs.getD i []) ≤ sqDist q (index_vecs.getD j []))
    (List.range index_vecs.length)).take k).map Int.ofNat ++
    List.replicate (k - index_vecs.length) (-1)

/-- The list comprehension `[chunks[i] for i in indices]`: every lookup must
be in range (after Python's negative-index resolution), otherwise the
comprehension raises (`none`). -/
def lookupAll (chunks : List String) : List Int → Option (List String)
  | [] => some []
  | i :: is =>
    match pyGet chunks i, lookupAll chunks is with
    | some c, some cs => some (c :: cs)
    | _, _ => none

/-- The index the notebook builds: one embedding per chunk, in order. -/
def buildIndex (embedder : String → List Int) (chunks : List String) :
    List (List Int) :=
  chunks.map embedder

/-- `retrieve_relevant_chunks`: embed the query, search the index for the `k`
nearest chunk embeddings, and look the returned indices up in `chunks`. -/
def retrieve_relevant_chunks (embedder : String → List Int)
    (index_vecs : List (List Int)) (chunks : List String) (query : String)
    (k : Nat) : Option (List String) :=
  let query_embedding := embedder query
  lookupAll chunks (searchIdx index_vecs query_embedding k)

/-! ### Generator prompt -/

/-- The notebook's prompt:
`context = "\n".join(relevant_chunks)` and then the f-string
`"Context: ..."` with the query and the answer cue. -/
def prompt (relevant_chunks : List String) (query : String) : String :=
  let context := pyJoin "\n" relevant_chunks
  "Context: " ++ context ++ "\n\nQuery: " ++ query ++ "\nAnswer:"

/-- Spec-side formulation of the prompt: the string `"Context: "` followed by
the retrieved chunks joined with newlines, then a blank line, then
`"Query: "` followed by the literal query, then a newline and the cue
`"Answer:"`. -/
def promptSpec (relevant_chunks : List String) (query : String) : String :=
  ("Context: " ++ pyJoin "\n" relevant_chunks) ++ "\n\n" ++
    ("Query: " ++ query) ++ ("\n" ++ "Answer:")

example :
    retrieve_relevant_chunks (fun s => [(s.length : Int)])
      (buildIndex (fun s => [(s.length : Int)]) ["aa", "b"]) ["aa", "b"] "x" 2 =
      some ["b", "aa"] := by decide

example :
    retrieve_relevant_chunks (fun s => [(s.length : Int)])
      (buildIndex (fun s => [(s.length : Int)]) ["aa", "b"]) ["aa", "b"] "x" 3 =
      some ["b", "aa", "b"] := by decide

/-! ### Lemmas about `splitWhitespace` and `pyJoin` -/

theorem wordsAux_clean (cs : List Char) :
    ∀ cur, (∀ c ∈ cur, pyIsSpace c = false) →
      ∀ w ∈ wordsAux cs cur, w ≠ [] ∧ ∀ c ∈ w, pyIsSpace c = false := by
  induction cs with
  | nil =>
    intro cur hcur w hw
    simp only [wordsAux] at hw
    by_cases hc : cur.isEmpty
    · simp [hc] at hw
    · rw [if_neg hc] at hw
      simp only [List.mem_singleton] at hw
      subst hw
      refine ⟨?_, ?_⟩
      · simp only [ne_eq, List.reverse_eq_nil_iff]
        exact fun h => hc (by simp [h])
      · intro c hc'
        exact hcur c (List.mem_reverse.mp hc')
  | cons c cs ih =>
    intro cur hcur w hw
    by_cases hc : pyIsSpace c
    · simp only [wordsAux, hc, if_true] at hw
      by_cases hcur' : cur.isEmpty
      · rw [if_pos hcur'] at hw
        exact ih [] (by simp) w hw
      · rw [if_neg hcur'] at hw
        rcases List.mem_cons.mp hw with rfl | hw'
        · refine ⟨?_, ?_⟩
          · simp only [ne_eq, List.reverse_eq_nil_iff]
            exact fun h => hcur' (by simp [h])
          · intro c' hc'
            exact hcur c' (List.mem_reverse.mp hc')
        · exact ih [] (by simp) w hw'
    · simp only [wordsAux, hc, if_false, Bool.false_eq_true] at hw
      refine ih (c :: cur) ?_ w hw
      intro c' hc'
      rcases List.mem_cons.mp hc' with rfl | h
      · simpa using hc
      · exact hcur c' h

theorem splitWhitespace_clean (s : String) :
    ∀ w ∈ splitWhitespace s, w ≠ "" ∧ ∀ c ∈ w.data, pyIsSpace c = false := by
  intro w hw
  simp only [splitWhitespace, List.mem_map] at hw
  obtain ⟨l, hl, rfl⟩ := hw
  have h := wordsAux_clean s.data [] (by simp) l hl
  refine ⟨?_, h.2⟩
  intro hcon
  exact h.1 (congrArg String.data hcon)

theorem wordsAux_append (wchars : List Char) :
    ∀ cs cur, (∀ c ∈ wchars, pyIsSpace c = false) →
      wordsAux (wchars ++ cs) cur = wordsAux cs (wchars.reverse ++ cur) := by
  induction wchars with
  | nil => intro cs cur _; simp
  | cons c rest ih =>
    intro cs cur hclean
    have hc : pyIsSpace c = false := hclean c (List.mem_cons_self c rest)
    simp only [List.cons_append, wordsAux, hc, if_false, Bool.false_eq_true, List.append_eq]
    rw [ih cs (c :: cur) (fun c' h => hclean c' (List.mem_cons_of_mem c h))]
    simp [List.append_assoc]

theorem splitWhitespace_pyJoin :
    ∀ ws : List String,
      (∀ w ∈ ws, w ≠ "" ∧ ∀ c ∈ w.data, pyIsSpace c = false) →
      splitWhitespace (pyJoin " " ws) = ws := by
  intro ws
  induction ws with
  | nil => intro _; decide
  | cons w ws ih =>
    intro hclean
    have hw := hclean w (List.mem_cons_self w ws)
    have hwdata : w.data ≠ [] := fun h => hw.1 (String.ext h)
    cases ws with
    | nil =>
      show splitWhitespace w = [w]
      unfold splitWhitespace
      have := wordsAux_append w.data [] [] hw.2
      rw [List.append_nil, List.append_nil] at this
      rw [this]
      simp only [wordsAux]
      rw [if_neg (by simp [List.isEmpty_iff, hwdata])]
      simp
    | cons w' ws' =>
      have hrest : ∀ v ∈ w' :: ws', v ≠ "" ∧ ∀ c ∈ v.data, pyIsSpace c = false :=
        fun v hv => hclean v (List.mem_cons_of_mem w hv)
      show splitWhitespace (w ++ " " ++ pyJoin " " (w' :: ws')) = w :: w' :: ws'
      unfold splitWhitespace
      rw [String.data_append, String.data_append]
      have hsp : (" " : String).data = [' '] := rfl
      rw [hsp, List.append_assoc]
      rw [wordsAux_append w.data _ [] hw.2, List.append_nil]
      show (wordsAux (' ' :: (pyJoin " " (w' :: ws')).data) w.data.reverse).map String.mk =
        w :: w' :: ws'
      simp only [wordsAux]
      rw [if_pos (by decide)]
      rw [if_neg (by simp [List.isEmpty_iff, hwdata])]
      simp only [List.map_cons, List.reverse_reverse]
      have : (wordsAux (pyJoin " " (w' :: ws')).data []).map String.mk =
          splitWhitespace (pyJoin " " (w' :: ws')) := rfl
      rw [this, ih hrest]

theorem pyJoin_space_ne_empty (w : String) (ws : List String) (hw : w ≠ "") :
    pyJoin " " (w :: ws) ≠ "" := by
  cases ws with
  | nil => simpa [pyJoin] using hw
  | cons w' ws' =>
    intro h
    have hlen := congrArg String.length h
    rw [show pyJoin " " (w :: w' :: ws') = w ++ " " ++ pyJoin " " (w' :: ws') from rfl] at hlen
    rw [String.length_append, String.length_append] at hlen
    have h1 : (" " : String).length = 1 := rfl
    have h0 : ("" : String).length = 0 := rfl
    omega

/-! ### Lemmas about the chunker -/

theorem chunkWordsAux_eq_nil (words : List String) (W O start fuel : Nat)
    (h : words.length ≤ start) : chunkWordsAux words W O start fuel = [] := by
  cases fuel with
  | zero => rfl
  | succ fuel => simp [chunkWordsAux, Nat.not_lt.mpr h]

theorem chunkWordsAux_length (words : List String) (W O : Nat) (hO : O < W) :
    ∀ fuel start, words.length - start ≤ fuel →
      (chunkWordsAux words W O start fuel).length =
        if start < words.length then (words.length - start - 1) / (W - O) + 1 else 0 := by
  intro fuel
  induction fuel with
  | zero =>
    intro start h
    have hs : ¬ start < words.length := by omega
    simp [chunkWordsAux, hs]
  | succ fuel ih =>
    intro start h
    by_cases hs : start < words.length
    · simp only [chunkWordsAux, if_pos hs, List.length_cons]
      rw [ih (start + (W - O)) (by omega)]
      by_cases h2 : start + (W - O) < words.length
      · rw [if_pos h2]
        have h3 : W - O ≤ words.length - start - 1 := by omega
        have h4 : words.length - (start + (W - O)) - 1 =
            (words.length - start - 1) - (W - O) := by omega
        rw [h4, ← Nat.div_eq_sub_div (by omega) h3]
      · rw [if_neg h2]
        have : (words.length - start - 1) / (W - O) = 0 := Nat.div_eq_of_lt (by omega)
        omega
    · simp [chunkWordsAux, hs]

theorem chunkWordsAux_drop_flatten (words : List String) (W O : Nat) (hO : O < W) :
    ∀ fuel start, words.length - start ≤ fuel →
      ((chunkWordsAux words W O start fuel).map (List.drop O)).flatten =
        words.drop (start + O) := by
  intro fuel
  induction fuel with
  | zero =>
    intro start h
    rw [chunkWordsAux_eq_nil words W O start 0 (by omega)]
    exact (List.drop_eq_nil_of_le (by omega)).symm
  | succ fuel ih =>
    intro start h
    by_cases hs : start < words.length
    · simp only [chunkWordsAux, if_pos hs, List.map_cons, List.flatten_cons]
      rw [ih (start + (W - O)) (by omega)]
      rw [List.drop_take, List.drop_drop]
      have harith : start + (W - O) + O = start + O + (W - O) := by omega
      rw [harith]
      exact List.drop_take_append_drop words (start + O) (W - O)
    · rw [chunkWordsAux_eq_nil words W O start (fuel + 1) (by omega)]
      exact (List.drop_eq_nil_of_le (by omega)).symm

theorem chunkWordsAux_subset (words : List String) (W O : Nat) :
    ∀ fuel start ws, ws ∈ chunkWordsAux words W O start fuel → ws ⊆ words := by
  intro fuel
  induction fuel with
  | zero => intro start ws hws; simp [chunkWordsAux] at hws
  | succ fuel ih =>
    intro start ws hws
    by_cases hs : start < words.length
    · simp only [chunkWordsAux, if_pos hs, List.mem_cons] at hws
      rcases hws with rfl | hws
      · exact fun x hx => List.drop_subset start words (List.take_subset W _ hx)
      · exact ih _ ws hws
    · rw [chunkWordsAux_eq_nil words W O start (fuel + 1) (by omega)] at hws
      simp at hws

theorem chunkWordsAux_ne_nil (words : List String) (W O : Nat) (hW : 0 < W) :
    ∀ fuel start ws, ws ∈ chunkWordsAux words W O start fuel → ws ≠ [] := by
  intro fuel
  induction fuel with
  | zero => intro start ws hws; simp [chunkWordsAux] at hws
  | succ fuel ih =>
    intro start ws hws
    by_cases hs : start < words.length
    · simp only [chunkWordsAux, if_pos hs, List.mem_cons] at hws
      rcases hws with rfl | hws
      · apply List.ne_nil_of_length_pos
        rw [List.length_take, List.length_drop]
        omega
      · exact ih _ ws hws
    · rw [chunkWordsAux_eq_nil words W O start (fuel + 1) (by omega)] at hws
      simp at hws

theorem chunkWords_collapse (words : List String) (W O : Nat) (hO : O < W)
    (hne : words ≠ []) : collapseOverlaps O (chunkWords words W O) = words := by
  have hn : 0 < words.length := List.length_pos.mpr hne
  unfold chunkWords
  obtain ⟨m, hm⟩ : ∃ m, words.length = m + 1 := ⟨words.length - 1, by omega⟩
  rw [hm]
  simp only [chunkWordsAux, if_pos (show 0 < words.length by omega), collapseOverlaps]
  rw [chunkWordsAux_drop_flatten words W O hO m (0 + (W - O)) (by omega)]
  have harith : 0 + (W - O) + O = W := by omega
  rw [harith, List.drop_zero]
  exact List.take_append_drop W words

/-- Python-slice form of a chunk window: for `0 ≤ start ≤ len`,
`words[start : min (start+W) len]` is `(words.drop start).take W`. -/
theorem pySlice_natCast {α : Type} (l : List α) (start W : Nat) (h : start ≤ l.length) :
    pySlice l (start : Int) (min ((start : Int) + (W : Int)) ((l.length : Int))) =
      (l.drop start).take W := by
  unfold pySlice pyIndex
  have h1 : ¬ ((start : Int) < 0) := by omega
  have h2 : ¬ (min ((start : Int) + (W : Int)) ((l.length : Int)) < 0) := by omega
  rw [if_neg h1, if_neg h2]
  have h3 : ((start : Int)).toNat = start := Int.toNat_natCast start
  have h4 : (min ((start : Int) + (W : Int)) ((l.length : Int))).toNat =
      min (start + W) l.length := by omega
  rw [h3, h4]
  have h5 : min (min (start + W) l.length) l.length = min (start + W) l.length := by omega
  have h6 : min start l.length = start := by omega
  rw [h5, h6]
  rw [List.take_eq_take.mpr (show min (start + W) l.length ⊓ l.length =
    (start + W) ⊓ l.length by omega)]
  rw [List.drop_take]
  have h7 : start + W - start = W := by omega
  rw [h7]

theorem chunkLoop_eq (words : List String) (W O : Nat) (hO : O < W) :
    ∀ fuel fuel2 start acc, words.length - start ≤ fuel → words.length - start ≤ fuel2 →
      chunkLoop words W O (start : Int) acc fuel =
        some (acc ++ (chunkWordsAux words W O start fuel2).map (pyJoin " ")) := by
  intro fuel
  induction fuel with
  | zero =>
    intro fuel2 start acc h h2
    have hs : ¬ start < words.length := by omega
    simp only [chunkLoop]
    rw [if_neg (by exact_mod_cast hs)]
    rw [chunkWordsAux_eq_nil words W O start fuel2 (by omega)]
    simp
  | succ fuel ih =>
    intro fuel2 start acc h h2
    by_cases hs : start < words.length
    · obtain ⟨f2, rfl⟩ : ∃ f2, fuel2 = f2 + 1 := by
        cases fuel2 with
        | zero => omega
        | succ f2 => exact ⟨f2, rfl⟩
      simp only [chunkLoop, chunkWordsAux, if_pos hs]
      rw [if_pos (show (start : Int) < (words.length : Int) by exact_mod_cast hs)]
      rw [pySlice_natCast words start W (le_of_lt hs)]
      have harith : (start : Int) + ((W : Int) - (O : Int)) =
          ((start + (W - O) : Nat) : Int) := by omega
      rw [harith]
      rw [ih f2 (start + (W - O)) (acc ++ [pyJoin " " ((words.drop start).take W)])
        (by omega) (by omega)]
      simp
    · simp only [chunkLoop]
      rw [if_neg (by exact_mod_cast hs)]
      rw [chunkWordsAux_eq_nil words W O start fuel2 (by omega)]
      simp

theorem chunkLoop_none_of_le (words : List String) (W O : Nat) (hWO : W ≤ O)
    (hw : words ≠ []) :
    ∀ fuel (start : Int), start ≤ 0 → ∀ acc, chunkLoop words W O start acc fuel = none := by
  have hlen : 0 < words.length := List.length_pos.mpr hw
  have hlen' : (0 : Int) < (words.length : Int) := by exact_mod_cast hlen
  have hWO' : (W : Int) ≤ (O : Int) := by exact_mod_cast hWO
  intro fuel
  induction fuel with
  | zero =>
    intro start hstart acc
    simp only [chunkLoop]
    rw [if_pos (by omega)]
  | succ fuel ih =>
    intro start hstart acc
    simp only [chunkLoop]
    rw [if_pos (by omega)]
    exact ih (start + ((W : Int) - (O : Int))) (by omega) _

/-! ### Lemmas about retrieval -/

theorem lookupAll_append (chunks : List String) (xs ys : List Int) (us vs : List String)
    (hx : lookupAll chunks xs = some us) (hy : lookupAll chunks ys = some vs) :
    lookupAll chunks (xs ++ ys) = some (us ++ vs) := by
  induction xs generalizing us with
  | nil =>
    simp only [lookupAll] at hx
    cases hx
    simpa using hy
  | cons i is ih =>
    rw [List.cons_append]
    simp only [lookupAll] at hx ⊢
    cases hg : pyGet chunks i with
    | none => rw [hg] at hx; simp at hx
    | some c =>
      rw [hg] at hx
      cases hrec : lookupAll chunks is with
      | none => rw [hrec] at hx; simp at hx
      | some cs =>
        rw [hrec] at hx
        simp only [Option.some.injEq] at hx
        subst hx
        rw [ih cs hrec]
        rfl

theorem pyGet_natCast (chunks : List String) (i : Nat) (h : i < chunks.length) :
    pyGet chunks (Int.ofNat i) = some (chunks.getD i "") := by
  rw [Int.ofNat_eq_coe]
  simp only [pyGet]
  rw [if_neg (show ¬ ((i : Int) < 0) by omega)]
  rw [if_pos (show (0 : Int) ≤ (i : Int) by omega)]
  rw [Int.toNat_natCast]
  rw [List.get?_eq_getElem?, List.getElem?_eq_getElem h, List.getD_eq_getElem chunks "" h]

theorem lookupAll_natCast (chunks : List String) (is : List Nat)
    (h : ∀ i ∈ is, i < chunks.length) :
    lookupAll chunks (is.map Int.ofNat) =
      some (is.map fun i => chunks.getD i "") := by
  induction is with
  | nil => rfl
  | cons i is ih =>
    simp only [List.map_cons, lookupAll]
    rw [pyGet_natCast chunks i (h i (List.mem_cons_self i is))]
    rw [ih (fun j hj => h j (List.mem_cons_of_mem i hj))]

theorem pyGet_neg_one (chunks : List String) (hne : chunks ≠ []) :
    pyGet chunks (-1) = some (chunks.getLast hne) := by
  have hlen : 0 < chunks.length := List.length_pos.mpr hne
  simp only [pyGet]
  rw [if_pos (show (-1 : Int) < 0 by decide)]
  rw [if_pos (show (0 : Int) ≤ (chunks.length : Int) + (-1) by omega)]
  have h1 : ((chunks.length : Int) + (-1)).toNat = chunks.length - 1 := by omega
  rw [h1]
  have h2 : chunks.length - 1 < chunks.length := by omega
  rw [List.get?_eq_getElem?, List.getElem?_eq_getElem h2, List.getLast_eq_getElem chunks hne]

theorem lookupAll_replicate_neg_one (chunks : List String) (hne : chunks ≠ []) (m : Nat) :
    lookupAll chunks (List.replicate m (-1)) =
      some (List.replicate m (chunks.getLast hne)) := by
  induction m with
  | zero => rfl
  | succ m ih =>
    simp only [List.replicate_succ, lookupAll]
    rw [pyGet_neg_one chunks hne, ih]

theorem buildIndex_getD (embedder : String → List Int) (chunks : List String) (i : Nat)
    (h : i < chunks.length) :
    (buildIndex embedder chunks).getD i [] = embedder (chunks.getD i "") := by
  have h' : i < (buildIndex embedder chunks).length := by
    simpa [buildIndex] using h
  rw [List.getD_eq_getElem _ _ h', List.getD_eq_getElem _ _ h]
  simp [buildIndex]

/-! ### Lemmas about the extractor -/

theorem extractPages_eq (ps : List String) :
    ∀ acc i, extractPages acc i ps = acc ++ extractSpec i ps := by
  induction ps with
  | nil => intro acc i; simp [extractPages, extractSpec, String.append_empty]
  | cons p ps ih =>
    intro acc i
    simp only [extractPages, extractSpec]
    by_cases hp : p = ""
    · rw [if_pos hp, if_pos hp, ih, String.empty_append]
    · rw [if_neg hp, if_neg hp, ih, String.append_assoc]

/-! ## The claims -/

/-- C1: the spec requires `chunk_text` with overlap ≥ window size on non-empty
input to raise a configuration error eagerly; the code has no such guard and
instead never terminates: the loop's step is ≤ 0, so `start` never advances
past 0 and for every iteration bound the loop is still running (`none`) —
no error is raised and no chunk list is ever produced. -/
theorem c1_chunk_text_diverges (text : String) (W O : Nat)
    (h1 : W ≤ O) (h2 : splitWhitespace text ≠ []) (fuel : Nat) :
    chunk_textFuel text W O fuel = none :=
  chunkLoop_none_of_le (splitWhitespace text) W O h1 h2 fuel 0 le_rfl []

theorem c1_chunk_text_diverges_witness : chunk_textFuel "a b c" 2 2 1000 = none :=
  c1_chunk_text_diverges "a b c" 2 2 (le_refl 2) (by decide) 1000

/-- C2 counterexample: a ten-word text with window W = 10 and overlap O = 2
has word count n = 10 ≤ W, where the claim demands exactly one chunk, but
`chunk_text` produces two: after the first window `start` advances by
W − O = 8 < n, so a second (redundant) chunk of the last two words is
emitted. -/
theorem c2_chunk_count_counterexample :
    (chunk_text "a b c d e f g h i j" 10 2).length = 2 ∧
      (chunk_text "a b c d e f g h i j" 10 2).length ≠ 1 := by decide

/-- C2 (amended): for overlap O < window W, the number of chunks equals
⌈n / (W − O)⌉ — written (n + (W − O) − 1) / (W − O) in natural division —
where n is the whitespace word count of the input (so 0 chunks when n = 0,
and the window-count never depends on the claimed branch at n ≤ W). -/
theorem c2_chunk_count (text : String) (W O : Nat) (hO : O < W) :
    (chunk_text text W O).length =
      ((splitWhitespace text).length + (W - O) - 1) / (W - O) := by
  unfold chunk_text chunkWords
  rw [List.length_map,
    chunkWordsAux_length (splitWhitespace text) W O hO (splitWhitespace text).length 0
      (by omega)]
  set n := (splitWhitespace text).length with hn
  by_cases h : 0 < n
  · rw [if_pos h]
    have h2 : n + (W - O) - 1 = (n - 1) + (W - O) := by omega
    rw [Nat.sub_zero, h2, Nat.add_div_right _ (by omega)]
  · rw [if_neg h]
    have h0 : n = 0 := by omega
    rw [h0]
    have h3 : 0 + (W - O) - 1 = W - O - 1 := by omega
    rw [h3, Nat.div_eq_of_lt (by omega)]

theorem c2_chunk_count_witness :
    (chunk_text "a b c d e f g h i j k l m n o p q" 10 2).length =
      ((splitWhitespace "a b c d e f g h i j k l m n o p q").length + (10 - 2) - 1) /
        (10 - 2) :=
  c2_chunk_count "a b c d e f g h i j k l m n o p q" 10 2 (by decide)

/-- C3: for overlap O < window W and non-empty input, reading the chunks'
word sequences in order and collapsing the words shared between consecutive
chunks (each later chunk drops the O words it shares with its predecessor)
reconstructs the whitespace word sequence of the input exactly. -/
theorem c3_chunks_reconstruct (text : String) (W O : Nat) (hO : O < W)
    (hne : splitWhitespace text ≠ []) :
    collapseOverlaps O ((chunk_text text W O).map splitWhitespace) =
      splitWhitespace text := by
  have hkey : (chunk_text text W O).map splitWhitespace =
      chunkWords (splitWhitespace text) W O := by
    unfold chunk_text
    rw [List.map_map]
    have hpt : ∀ ws ∈ chunkWords (splitWhitespace text) W O,
        (splitWhitespace ∘ pyJoin " ") ws = id ws := by
      intro ws hws
      simp only [Function.comp_apply, id_eq]
      apply splitWhitespace_pyJoin
      intro w hw
      exact splitWhitespace_clean text w
        (chunkWordsAux_subset (splitWhitespace text) W O _ 0 ws hws hw)
    rw [List.map_congr_left hpt, List.map_id]
  rw [hkey]
  exact chunkWords_collapse (splitWhitespace text) W O hO hne

theorem c3_chunks_reconstruct_witness :
    collapseOverlaps 1 ((chunk_text "a b c" 2 1).map splitWhitespace) =
      splitWhitespace "a b c" :=
  c3_chunks_reconstruct "a b c" 2 1 (by decide) (by decide)

/-- C5: each page whose extraction is non-empty contributes the 1-indexed
marker `--- Page N ---` (with surrounding newlines, as in the code) followed
by its text, and each page whose extraction is empty contributes nothing; on
a PDF with one page "hello world" and one empty page the result carries
exactly the one marker of page 1. -/
theorem c5_extract_text (pages : List String) :
    extract_text_from_pdf pages = extractSpec 0 pages ∧
      extract_text_from_pdf ["hello world", ""] = "\n--- Page 1 ---\nhello world" := by
  constructor
  · unfold extract_text_from_pdf
    rw [extractPages_eq pages "" 0, String.empty_append]
  · decide

/-- C6: for 0 < O < W the chunking loop terminates — word-count many
iterations always suffice — and its result is exactly the chunk list
`chunk_text` computes. -/
theorem c6_chunk_text_terminates (text : String) (W O fuel : Nat) (h1 : 0 < O)
    (h2 : O < W) (hfuel : (splitWhitespace text).length ≤ fuel) :
    chunk_textFuel text W O fuel = some (chunk_text text W O) := by
  unfold chunk_textFuel chunk_text chunkWords
  have h := chunkLoop_eq (splitWhitespace text) W O h2 fuel
    (splitWhitespace text).length 0 [] (by omega) (by omega)
  simpa using h

theorem c6_chunk_text_terminates_witness :
    chunk_textFuel "a b c" 2 1 3 = some (chunk_text "a b c" 2 1) :=
  c6_chunk_text_terminates "a b c" 2 1 3 (by decide) (by decide) (by decide)

/-- C7: the empty text yields the empty chunk sequence for every window and
overlap: both the terminating chunker and the literal loop (at every
iteration bound, so for arbitrary parameters) return no chunks. -/
theorem c7_empty_text (W O : Nat) :
    chunk_text "" W O = [] ∧ ∀ fuel, chunk_textFuel "" W O fuel = some [] := by
  have hsplit : splitWhitespace "" = [] := rfl
  constructor
  · unfold chunk_text chunkWords
    rw [hsplit]
    rfl
  · intro fuel
    unfold chunk_textFuel
    rw [hsplit]
    cases fuel with
    | zero => simp [chunkLoop]
    | succ fuel => simp [chunkLoop]

/-- C8: the generator's prompt equals `"Context: "` followed by the retrieved
chunks joined with newlines, then a blank line, then `"Query: "` followed by
the literal query, then a newline and the cue `"Answer:"`. -/
theorem c8_prompt_format (relevant_chunks : List String) (query : String) :
    prompt relevant_chunks query = promptSpec relevant_chunks query := by
  unfold prompt promptSpec
  have h1 : ∀ s : String, "\n\n" ++ ("Query: " ++ s) = "\n\nQuery: " ++ s := by
    intro s
    rw [← String.append_assoc]
    rfl
  have h2 : ("\n" ++ "Answer:" : String) = "\nAnswer:" := rfl
  rw [h2]
  simp only [String.append_assoc]
  rw [h1]

/-- C10: with 0 < overlap < window size, every chunk `chunk_text` returns is a
non-empty string: each window starts strictly below the word count, hence
holds at least one word, and the words it joins are themselves non-empty. -/
theorem c10_chunks_nonempty (text : String) (W O : Nat) (h1 : 0 < O)
    (h2 : O < W) : ∀ c ∈ chunk_text text W O, c ≠ "" := by
  intro c hc
  unfold chunk_text at hc
  rw [List.mem_map] at hc
  obtain ⟨ws, hws, rfl⟩ := hc
  have hnil : ws ≠ [] :=
    chunkWordsAux_ne_nil (splitWhitespace text) W O (by omega) _ 0 ws hws
  cases ws with
  | nil => exact absurd rfl hnil
  | cons w tl =>
    have hw : w ≠ "" :=
      (splitWhitespace_clean text w
        (chunkWordsAux_subset (splitWhitespace text) W O _ 0 _ hws
          (List.mem_cons_self w tl))).1
    exact pyJoin_space_ne_empty w tl hw

theorem c10_chunks_nonempty_witness : "" ∉ chunk_text "a b c" 2 1 :=
  fun h => c10_chunks_nonempty "a b c" 2 1 (by decide) (by decide) "" h rfl

/-! ### Retrieval claims -/

theorem searchIdx_sorted (db : List (List Int)) (q : List Int) :
    List.Sorted (fun i j => sqDist q (db.getD i []) ≤ sqDist q (db.getD j []))
      (List.insertionSort
        (fun i j => sqDist q (db.getD i []) ≤ sqDist q (db.getD j []))
        (List.range db.length)) := by
  haveI : IsTotal Nat (fun i j => sqDist q (db.getD i []) ≤ sqDist q (db.getD j [])) :=
    ⟨fun a b => le_total _ _⟩
  haveI : IsTrans Nat (fun i j => sqDist q (db.getD i []) ≤ sqDist q (db.getD j [])) :=
    ⟨fun a b c hab hbc => le_trans hab hbc⟩
  exact List.sorted_insertionSort _ _

theorem searchIdx_of_le (db : List (List Int)) (q : List Int) (k : Nat)
    (hk : k ≤ db.length) :
    searchIdx db q k =
      ((List.insertionSort
        (fun i j => sqDist q (db.getD i []) ≤ sqDist q (db.getD j []))
        (List.range db.length)).take k).map Int.ofNat := by
  unfold searchIdx
  rw [show k - db.length = 0 from by omega]
  simp

theorem searchIdx_of_gt (db : List (List Int)) (q : List Int) (k : Nat)
    (hk : db.length ≤ k) :
    searchIdx db q k =
      ((List.insertionSort
        (fun i j => sqDist q (db.getD i []) ≤ sqDist q (db.getD j []))
        (List.range db.length)).map Int.ofNat) ++
        List.replicate (k - db.length) (-1) := by
  unfold searchIdx
  rw [List.take_of_length_le
    (by rw [(List.perm_insertionSort _ _).length_eq, List.length_range]; omega)]

/-- C4: for 1 ≤ k ≤ number of chunks, retrieval succeeds and returns exactly
k chunks, each an element of the original chunk sequence (looked up by index
position), ordered by non-decreasing squared Euclidean distance between the
query embedding and the chunk embeddings — equivalently non-decreasing
Euclidean distance, since squaring preserves the order of distances. -/
theorem c4_retrieve_top_k (embedder : String → List Int) (chunks : List String)
    (query : String) (k : Nat) (hk1 : 1 ≤ k) (hk2 : k ≤ chunks.length) :
    ∃ res,
      retrieve_relevant_chunks embedder (buildIndex embedder chunks) chunks query k
          = some res ∧
        res.length = k ∧ (∀ c ∈ res, c ∈ chunks) ∧
        List.Sorted (· ≤ ·)
          (res.map fun c => sqDist (embedder query) (embedder c)) := by
  have hdb : (buildIndex embedder chunks).length = chunks.length := by
    simp [buildIndex]
  set q := embedder query with hq
  set r := fun i j : Nat =>
    sqDist q ((buildIndex embedder chunks).getD i []) ≤
      sqDist q ((buildIndex embedder chunks).getD j []) with hr
  set order := List.insertionSort r (List.range (buildIndex embedder chunks).length)
    with horder
  have horder_len : order.length = chunks.length := by
    rw [horder, (List.perm_insertionSort r _).length_eq, List.length_range, hdb]
  have hmemlt : ∀ i ∈ order, i < chunks.length := by
    intro i hi
    rw [horder, List.mem_insertionSort, List.mem_range] at hi
    omega
  have hsub : ∀ i ∈ order.take k, i < chunks.length :=
    fun i hi => hmemlt i (List.take_subset k order hi)
  refine ⟨(order.take k).map (fun i => chunks.getD i ""), ?_, ?_, ?_, ?_⟩
  · show lookupAll chunks (searchIdx (buildIndex embedder chunks) q k) = _
    rw [searchIdx_of_le _ _ _ (by omega)]
    exact lookupAll_natCast chunks (order.take k) hsub
  · rw [List.length_map, List.length_take]
    omega
  · intro c hc
    rw [List.mem_map] at hc
    obtain ⟨i, hi, rfl⟩ := hc
    have hilt := hsub i hi
    rw [List.getD_eq_getElem chunks "" hilt]
    exact List.getElem_mem hilt
  · have hpair : List.Pairwise r order :=
      searchIdx_sorted (buildIndex embedder chunks) q
    have hpairk : List.Pairwise r (order.take k) :=
      List.Pairwise.sublist (List.take_sublist k order) hpair
    show List.Pairwise _ _
    rw [List.map_map, List.pairwise_map]
    refine List.Pairwise.imp_of_mem ?_ hpairk
    intro a b ha hb hab
    have hab' : sqDist q ((buildIndex embedder chunks).getD a []) ≤
        sqDist q ((buildIndex embedder chunks).getD b []) := hab
    simp only [Function.comp_apply]
    rwa [buildIndex_getD embedder chunks a (hsub a ha),
      buildIndex_getD embedder chunks b (hsub b hb)] at hab'

theorem c4_retrieve_top_k_witness :
    ∃ res,
      retrieve_relevant_chunks (fun s => [(s.length : Int)])
          (buildIndex (fun s => [(s.length : Int)]) ["aa", "b"]) ["aa", "b"] "x" 2
          = some res ∧
        res.length = 2 ∧ (∀ c ∈ res, c ∈ ["aa", "b"]) ∧
        List.Sorted (· ≤ ·)
          (res.map fun c =>
            sqDist ((fun s => [(s.length : Int)]) "x") ((fun s => [(s.length : Int)]) c)) :=
  c4_retrieve_top_k (fun s => [(s.length : Int)]) ["aa", "b"] "x" 2
    (by decide) (by decide)

/-- C9: when k exceeds the number N ≥ 1 of chunks, retrieval neither raises
nor clamps: the flat index pads the missing neighbors with index −1, Python's
negative indexing resolves `chunks[-1]` to the last chunk, and the result has
length k with every position beyond N holding that last chunk. -/
theorem c9_retrieve_padding (embedder : String → List Int) (chunks : List String)
    (query : String) (k : Nat) (hne : chunks ≠ []) (hk : chunks.length < k) :
    ∃ res last,
      retrieve_relevant_chunks embedder (buildIndex embedder chunks) chunks query k
          = some res ∧
        res.length = k ∧ chunks.getLast? = some last ∧
        res.drop chunks.length = List.replicate (k - chunks.length) last := by
  have hdb : (buildIndex embedder chunks).length = chunks.length := by
    simp [buildIndex]
  set q := embedder query with hq
  set r := fun i j : Nat =>
    sqDist q ((buildIndex embedder chunks).getD i []) ≤
      sqDist q ((buildIndex embedder chunks).getD j []) with hr
  set order := List.insertionSort r (List.range (buildIndex embedder chunks).length)
    with horder
  have horder_len : order.length = chunks.length := by
    rw [horder, (List.perm_insertionSort r _).length_eq, List.length_range, hdb]
  have hmemlt : ∀ i ∈ order, i < chunks.length := by
    intro i hi
    rw [horder, List.mem_insertionSort, List.mem_range] at hi
    omega
  refine ⟨order.map (fun i => chunks.getD i "") ++
      List.replicate (k - chunks.length) (chunks.getLast hne),
    chunks.getLast hne, ?_, ?_, ?_, ?_⟩
  · show lookupAll chunks (searchIdx (buildIndex embedder chunks) q k) = _
    have hkk : k - (buildIndex embedder chunks).length = k - chunks.length := by
      rw [hdb]
    rw [searchIdx_of_gt _ _ _ (by omega), hkk]
    exact lookupAll_append chunks _ _ _ _
      (lookupAll_natCast chunks order hmemlt)
      (lookupAll_replicate_neg_one chunks hne (k - chunks.length))
  · rw [List.length_append, List.length_map, List.length_replicate]
    omega
  · exact List.getLast?_eq_getLast chunks hne
  · rw [show chunks.length = (order.map (fun i => chunks.getD i "")).length from by
      rw [List.length_map]; omega]
    exact List.drop_left _ _

theorem c9_retrieve_padding_witness :
    ∃ res last,
      retrieve_relevant_chunks (fun s => [(s.length : Int)])
          (buildIndex (fun s => [(s.length : Int)]) ["aa", "b"]) ["aa", "b"] "x" 3
          = some res ∧
        res.length = 3 ∧ (["aa", "b"] : List String).getLast? = some last ∧
        res.drop (["aa", "b"] : List String).length =
          List.replicate (3 - (["aa", "b"] : List String).length) last :=
  c9_retrieve_padding (fun s => [(s.length : Int)]) ["aa", "b"] "x" 3
    (by decide) (by decide)

end RAG
